import Mathlib

/-!
Verification of the process-lifecycle subsystem of an OS/161-based teaching
kernel (`kern/proc/proc.c`).  The development shallowly embeds the process
table, the pid allocator, the wait/exit rendezvous, the per-process file
descriptor table with reference-counted open-file handles, and the lock
acquisition order of the file-table duplication, and proves (or refutes) the
specification claims about them.

Modelling conventions:
* machine integers (`int`, `pid_t`) are `Int` where sign matters and `Nat`
  where the code only ever stores non-negative indices;
* spinlock acquire/release pairs delimit atomic steps of the sequential
  model and are elided; each embedded function is one critical section plus
  its surrounding straight-line code;
* pointers to PCBs stored in the process table are values: a store followed
  by field writes through the same pointer is embedded as storing the
  updated value;
* the parent back-reference (`struct proc *parent_proc`) is embedded as the
  parent's pid (`Option Nat`), matching the only use in `proc.c`
  (`p->parent_proc->p_pid == pid`).
-/

namespace OSProc

/-- `MAX_PROC` from `proc.c` (`#define MAX_PROC 100`). -/
def MAX_PROC : Nat := 100

/-- Modelled from the spec: `PID_MIN`, the smallest valid process
identifier.  The header defining it (`kern/include/kern/limits.h`) is not
under `src/`; the spec fixes the identifier space as `[1, MAX_PROCESSES]`
("identifiers start at 1", "slot 0 unused"), hence `PID_MIN = 1`. -/
def PID_MIN : Nat := 1

/-- Modelled from the spec: `OPEN_MAX`, the fixed capacity of a file
descriptor table.  The header defining it is not under `src/`; the spec only
requires a fixed capacity, and the claims do not depend on the numeric
value.  OS/161's customary value is used. -/
def OPEN_MAX : Nat := 128

/-- The fields of `struct proc` that `proc.c` reads or writes.
`p_addrspace`/`p_cwd` are opaque external resources (spec section 2) and are
not needed by any claim; the file table lives in the separate file-table
model below.  `parent_proc` is embedded as the parent's pid. -/
structure Proc where
  p_pid : Nat
  p_status : Int
  /-- Counting semaphore `p_sem` used for the wait/exit rendezvous: the
  `USE_SEMAPHORE_FOR_WAITPID` configuration of `proc.c`. -/
  p_sem : Nat
  p_exited : Int
  parent_proc : Option Nat
  p_name : String
  p_numthreads : Nat
  deriving DecidableEq, Repr

/-- `static struct _processTable processTable` from `proc.c`: slots indexed
by pid (slot 0 unused), index of the last allocated pid, and the full flag.
The spinlock `lk` delimits the atomic steps and is elided. -/
structure ProcTable where
  proc : Nat → Option Proc
  last_i : Nat
  is_full : Bool

/-- The index wrap-around `if (i > MAX_PROC) i = 1;` of the circular scan. -/
def wrapIdx (i : Nat) : Nat := if i > MAX_PROC then 1 else i

/-- The `while (i != processTable.last_i)` scan of `proc_init_waitpid`:
check the exit condition, inspect slot `i`, advance with wrap-around.  The
fuel argument bounds the number of loop-head checks; `MAX_PROC + 1` units
are enough for the loop to wrap once around the table, which is as far as
the C loop can go before hitting `last_i` (for `last_i` in `[1, MAX_PROC]`;
the unreachable full-table state with `last_i = 0`, on which the C loop
would not terminate, exhausts the fuel and is reported as Full). -/
def scanLoop (t : ProcTable) : Nat → Nat → Option Nat
  | 0, _ => none
  | fuel + 1, i =>
    if i = t.last_i then none
    else
      match t.proc i with
      | none => some i
      | some _ => scanLoop t fuel (wrapIdx (i + 1))

/-- Resources a PCB owns; used to check the rollback path of
`proc_create`. -/
inductive Resource where
  | RPCB | RName | RPLock | RFtLock | RSem
  deriving DecidableEq, Repr

/-- Result of `proc_init_waitpid`: the updated table, the updated PCB (the
table slot aliases the PCB in C, so the stored value is the updated one),
and the synchronization resources the call allocated. -/
structure InitResult where
  table : ProcTable
  newproc : Proc
  allocs : List Resource

/-- `proc_init_waitpid` from `proc.c`: circular scan for a free slot
starting after `last_i`; on success record the process, advance `last_i`,
assign the pid, zero the status and create the rendezvous semaphore
(`sem_create(name, 0)`); on failure set the full flag and leave
`p_pid = 0`, allocating nothing. -/
def proc_init_waitpid (t : ProcTable) (p : Proc) : InitResult :=
  match scanLoop t (MAX_PROC + 1) (wrapIdx (t.last_i + 1)) with
  | some i =>
    let p' : Proc := { p with p_pid := i, p_status := 0, p_sem := 0 }
    let upd : Nat → Option Proc := fun j => if j = i then some p' else t.proc j
    { table := { t with proc := upd, last_i := i }
      newproc := p'
      allocs := [Resource.RSem] }
  | none =>
    { table := { t with is_full := true }
      newproc := { p with p_pid := 0 }
      allocs := [] }

/-- `proc_end_waitpid` from `proc.c`: clear slot `p_pid`, clear the full
flag, destroy the rendezvous semaphore.  Precondition (KASSERT):
`0 < p_pid ≤ MAX_PROC`. -/
def proc_end_waitpid (t : ProcTable) (p : Proc) : ProcTable :=
  { t with proc := (fun j => if j = p.p_pid then none else t.proc j),
           is_full := false }

/-- `is_proc_table_full` from `proc.c`: read the flag under the lock. -/
def is_proc_table_full (t : ProcTable) : Bool := t.is_full

/-- `proc_search_pid` from `proc.c`: reject pids outside
`[PID_MIN, MAX_PROC]` (0 and negative included) without touching the table,
otherwise return the slot contents. -/
def proc_search_pid (t : ProcTable) (pid : Int) : Option Proc :=
  if pid < (PID_MIN : Int) ∨ pid > (MAX_PROC : Int) then none
  else t.proc pid.toNat

/-- Body of the `for` loop of `proc_rm_parent_link` at index `i`: if the
slot holds a process whose parent back-reference carries pid `pid`
(`p->parent_proc != NULL && p->parent_proc->p_pid == pid`), clear the
back-reference. -/
def clearParentSlot (pid : Nat) (t : ProcTable) (i : Nat) : ProcTable :=
  match t.proc i with
  | some p =>
    if p.parent_proc = some pid then
      { t with proc := fun j =>
          if j = i then some { p with parent_proc := none } else t.proc j }
    else t
  | none => t

/-- `proc_rm_parent_link` from `proc.c`: scan slots `1..MAX_PROC`, severing
every parent back-reference that carries `pid`.  Precondition (KASSERT):
`PID_MIN ≤ pid ≤ MAX_PROC`. -/
def proc_rm_parent_link (t : ProcTable) (pid : Nat) : ProcTable :=
  (List.range' 1 MAX_PROC).foldl (clearParentSlot pid) t

/-- `proc_signal_end` from `proc.c` (semaphore configuration): `V(p_sem)`. -/
def proc_signal_end (p : Proc) : Proc := { p with p_sem := p.p_sem + 1 }

/-- The effect of `proc_destroy` on the process table: the call to
`proc_end_waitpid` (unregistration).  Its effect on the open-file handles
is `proc_destroy_filetable` in the file-table model below; address space
and cwd teardown concern external subsystems. -/
def proc_destroy_table (t : ProcTable) (p : Proc) : ProcTable :=
  proc_end_waitpid t p

/-- `proc_wait` from `proc.c` (semaphore configuration): `P(p_sem)` —
blocking, hence `none` when the semaphore count is zero — then read
`p_status`, destroy the process (which unregisters it), and return the
status.  Preconditions (KASSERTs): `proc` non-null and not the kernel
process. -/
def proc_wait (t : ProcTable) (p : Proc) : Option (Int × ProcTable) :=
  if p.p_sem = 0 then none
  else some (p.p_status, proc_destroy_table t p)

/-- The PCB contents `proc_create` builds before registration
(`p_numthreads = 0`, no parent, `p_exited = 0`; pid, status and semaphore
are set by registration). -/
def initProc (name : String) : Proc :=
  { p_pid := 0, p_status := 0, p_sem := 0, p_exited := 0
  , parent_proc := none, p_name := name, p_numthreads := 0 }

/-- Result of `proc_create`: the returned PCB (or `NULL`), the table, and
the resources still allocated when the call returns. -/
structure CreateResult where
  result : Option Proc
  table : ProcTable
  held : List Resource

/-- `proc_create` from `proc.c`: allocate the PCB, duplicate the name,
initialize the PCB spinlock and the file-table lock, register via
`proc_init_waitpid`, and if the table reports full, free the name, the PCB
spinlock, the file-table lock and the PCB and return `NULL`.  Allocation
failures (`kmalloc`/`kstrdup` returning `NULL`) are outside the claims and
are not modelled; the `bzero` of the file table is the empty table of the
file-table model below. -/
def proc_create (t : ProcTable) (name : String) : CreateResult :=
  let acquired : List Resource :=
    [Resource.RPCB, Resource.RName, Resource.RPLock, Resource.RFtLock]
  let r := proc_init_waitpid t (initProc name)
  let held := acquired ++ r.allocs
  if is_proc_table_full r.table then
    { result := none
      table := r.table
      held := ((((held.erase Resource.RName).erase Resource.RPLock).erase
                 Resource.RFtLock).erase Resource.RPCB) }
  else
    { result := some r.newproc, table := r.table, held := held }

/-! ## Open-file handles and file descriptor tables

State touched by the `#if OPT_SHELL` file-table code of `proc_destroy`
(lines 320-337) and `proc_file_table_copy` (lines 538-556): a heap of
open-file handles addressed by handle id, the vnode reference counts, and a
log of `vfs_close` calls.  Lock acquire/release pairs (`of_lock`,
`ft_lock`, `ft_copy_lock`) delimit the atomic steps and are elided from the
sequential model; the lock-ordering discipline itself is modelled
separately below. -/

/-- Modelled from the spec: the fields of `struct openfile` that `proc.c`
uses — the reference count (`countRef`, a C `int`) and the underlying
file-system node (`vn`, nullable, embedded as the vnode's id).  The
defining header is not under `src/`; offset/mode state is unused here. -/
structure OpenFile where
  countRef : Int
  vn : Option Nat
  deriving DecidableEq, Repr

/-- The shared file-system state: live open-file handles (`none` =
destroyed/never allocated), vnode reference counts (`VOP_INCREF`), and the
log of `vfs_close` invocations, one entry per call, carrying the closed
vnode's id. -/
structure SysState where
  heap : Nat → Option OpenFile
  vnRefs : Nat → Int
  closes : List Nat

/-- `struct openfile *fileTable[OPEN_MAX]`: a fixed-capacity array of
nullable handle references, embedded as handle ids. -/
abbrev FDTable : Type := Fin OPEN_MAX → Option Nat

/-- The occupied-slot branch of the copy loop
(`if (of != NULL) { VOP_INCREF(of->vn); openfileIncrRefCount(of); }`).
`openfileIncrRefCount` is modelled from the spec ("increments the handle's
reference count"); its defining file is not under `src/`.  A dangling
handle id (no live handle) is a no-op: the C code would be
dereferencing freed memory, which no claim's hypotheses permit. -/
def incrSlot (st : SysState) (slot : Option Nat) : SysState :=
  match slot with
  | none => st
  | some ofid =>
    match st.heap ofid with
    | none => st
    | some of =>
      { st with
        heap := (fun g => if g = ofid then
                   some { of with countRef := of.countRef + 1 }
                 else st.heap g),
        vnRefs := (fun w => match of.vn with
                  | some v => if w = v then st.vnRefs w + 1 else st.vnRefs w
                  | none => st.vnRefs w) }

/-- The per-descriptor body of the teardown loop in `proc_destroy`: if the
slot is occupied, decrement the handle's reference count
(`--of->countRef`); on reaching zero, close the underlying vnode if any
(`vfs_close(of->vn)`) and destroy the handle.  The slot itself is cleared
regardless (the table is discarded with the process).  C's `int` decrement
of a positive count cannot wrap, so `Int` subtraction is exact. -/
def closeSlot (st : SysState) (slot : Option Nat) : SysState :=
  match slot with
  | none => st
  | some ofid =>
    match st.heap ofid with
    | none => st
    | some of =>
      let c := of.countRef - 1
      if c = 0 then
        { st with
          heap := (fun g => if g = ofid then none else st.heap g),
          closes := (match of.vn with
                     | some v => st.closes ++ [v]
                     | none => st.closes) }
      else
        { st with
          heap := (fun g => if g = ofid then
                     some { of with countRef := c }
                   else st.heap g) }

/-- One iteration of the `for (fd = 0; fd < OPEN_MAX; fd++)` loop of
`proc_file_table_copy`: `pdest->fileTable[fd] = psrc->fileTable[fd];`
unconditionally, then the occupied-slot increments. -/
def copyStep (psrc : FDTable) (acc : FDTable × SysState) (fd : Fin OPEN_MAX) :
    FDTable × SysState :=
  ((fun j => if j = fd then psrc fd else acc.1 j), incrSlot acc.2 (psrc fd))

/-- `proc_file_table_copy` from `proc.c`: under `ft_copy_lock`, the source
table's lock and the destination table's lock, copy every slot of the
source into the destination and bump the reference counts of every handle
the source references.  Returns the destination table and the shared
state. -/
def proc_file_table_copy (psrc pdest : FDTable) (st : SysState) :
    FDTable × SysState :=
  (List.finRange OPEN_MAX).foldl (copyStep psrc) (pdest, st)

/-- The file-table teardown loop of `proc_destroy` (lines 320-337): release
every descriptor of the table in ascending order.  The table itself is
freed with the PCB. -/
def proc_destroy_filetable (st : SysState) (T : FDTable) : SysState :=
  (List.ofFn T).foldl closeSlot st

/-- Number of descriptors of one table referencing handle `h`. -/
def countTable (T : FDTable) (h : Nat) : Nat :=
  (List.ofFn T).count (some h)

/-- Number of descriptor slots referencing handle `h` across a system of
processes, each contributing its file descriptor table. -/
def slotCount (tables : List FDTable) (h : Nat) : Nat :=
  (tables.map (fun T => countTable T h)).sum

/-- The open-file-handle invariant (spec section 3): outside critical
sections, every live handle's reference count equals the number of
descriptor-table slots, across all processes, referencing it; and no
descriptor references a destroyed handle. -/
def RefInv (tables : List FDTable) (st : SysState) : Prop :=
  (∀ h of, st.heap h = some of → of.countRef = (slotCount tables h : Int)) ∧
  (∀ T ∈ tables, ∀ fd : Fin OPEN_MAX, ∀ h, T fd = some h → st.heap h ≠ none)

/-! ## Lock acquisition order of `proc_file_table_copy`

The duplication routine takes, in order, the global `ft_copy_lock`, then
`psrc->ft_lock`, then `pdest->ft_lock`, and releases them in reverse
order.  To settle the deadlock claim, that lock skeleton is embedded as a
two-thread transition system: thread 1 runs `proc_file_table_copy(A, B)`
and thread 2 concurrently runs `proc_file_table_copy(B, A)`.  Lock 0 is
`ft_copy_lock`, lock 1 is A's `ft_lock`, lock 2 is B's `ft_lock`. -/

/-- A lock operation of the skeleton. -/
inductive LOp where
  | acq (l : Nat)
  | rel (l : Nat)
  deriving DecidableEq, Repr

/-- Lock sequence of `proc_file_table_copy(A, B)`: acquire `ft_copy_lock`,
A's lock, B's lock; release B's lock, A's lock, `ft_copy_lock`. -/
def copyLockProg1 : List LOp :=
  [LOp.acq 0, LOp.acq 1, LOp.acq 2, LOp.rel 2, LOp.rel 1, LOp.rel 0]

/-- Lock sequence of the reversed call `proc_file_table_copy(B, A)`. -/
def copyLockProg2 : List LOp :=
  [LOp.acq 0, LOp.acq 2, LOp.acq 1, LOp.rel 1, LOp.rel 2, LOp.rel 0]

/-- Locks a thread holds after executing the first `pc` operations of its
sequence. -/
def heldAfter (prog : List LOp) (pc : Nat) : List Nat :=
  (prog.take pc).foldl
    (fun h op => match op with
      | LOp.acq l => l :: h
      | LOp.rel l => h.erase l) []

/-- A lock operation is enabled against the set of locks the other thread
holds: acquisition blocks on a held lock, release never blocks. -/
def lockOpEnabled (other : List Nat) (op : LOp) : Bool :=
  match op with
  | LOp.acq l => !(other.contains l)
  | LOp.rel _ => true

/-- Joint state: the two program counters. -/
abbrev LockState : Type := Nat × Nat

/-- Enabled successor states: either thread executes its next operation if
that operation does not block on a lock the other thread holds. -/
def nextStates (s : LockState) : List LockState :=
  (match copyLockProg1.get? s.1 with
   | some op =>
     if lockOpEnabled (heldAfter copyLockProg2 s.2) op then [(s.1 + 1, s.2)]
     else []
   | none => []) ++
  (match copyLockProg2.get? s.2 with
   | some op =>
     if lockOpEnabled (heldAfter copyLockProg1 s.1) op then [(s.1, s.2 + 1)]
     else []
   | none => [])

/-- One round of closure expansion for the reachable-state set. -/
def stepClose (l : List LockState) : List LockState :=
  (l ++ l.flatMap nextStates).dedup

/-- All states reachable from `(0, 0)`: thirteen expansion rounds suffice
since every transition increases `pc1 + pc2 ≤ 12`. -/
def reachSet : List LockState :=
  stepClose^[13] [((0 : Nat), (0 : Nat))]

/-- `true` when the completed state `(6, 6)` is reachable from `s` within
`n` transitions. -/
def reachesDone : Nat → LockState → Bool
  | 0, s => s == (6, 6)
  | n + 1, s => s == (6, 6) || (nextStates s).any (reachesDone n)

/-- Reachability from the initial state of the two concurrent reversed
duplications. -/
inductive LockReach : LockState → Prop where
  | init : LockReach (0, 0)
  | step : ∀ s s', LockReach s → s' ∈ nextStates s → LockReach s'

/-! ## Auxiliary notions used by the claim statements -/

/-- Circular distance from slot `a` to slot `b` (both in `[1, MAX_PROC]`):
the number of steps the scan needs to move from `a` to `b`. -/
def cdist (a b : Nat) : Nat := (b + MAX_PROC - a) % MAX_PROC

/-- The process-table invariant: an occupied slot holds a process whose
`p_pid` is that slot's index (checked by the KASSERT in
`proc_search_pid`). -/
def TableInv (t : ProcTable) : Prop :=
  ∀ i p, 1 ≤ i → i ≤ MAX_PROC → t.proc i = some p → p.p_pid = i

/-- Table operations for registration/release traces. -/
inductive TableOp where
  | alloc (p : Proc)
  | release (p : Proc)

/-- Effect of one table operation. -/
def tableStep (t : ProcTable) (op : TableOp) : ProcTable :=
  match op with
  | TableOp.alloc p => (proc_init_waitpid t p).table
  | TableOp.release p => proc_end_waitpid t p

/-- The operation is not a release of identifier `pid`. -/
def avoidsRelease (pid : Nat) (op : TableOp) : Prop :=
  match op with
  | TableOp.alloc _ => True
  | TableOp.release p => p.p_pid ≠ pid

/-- The value a slot takes under the `proc_rm_parent_link` scan. -/
def clearParentValue (pid : Nat) : Option Proc → Option Proc
  | none => none
  | some p =>
    if p.parent_proc = some pid then some { p with parent_proc := none }
    else some p

/-- Modelled from the spec: the terminating side of the rendezvous writes
the exit status into the PCB and then calls `proc_signal_end` (the exit
system call performing this lives outside `src/`). -/
def exitedProc (p : Proc) (s : Int) : Proc :=
  proc_signal_end { p with p_status := s }

/-- The process table as seen after the exit of `p` with status `s`: the
table slot aliases the PCB in C, so it holds the updated PCB. -/
def aliasTable (t : ProcTable) (p : Proc) (s : Int) : ProcTable :=
  { t with proc := (fun j => if j = p.p_pid then some (exitedProc p s)
                             else t.proc j) }

/-! ## Concrete states for witnesses and counterexamples -/

/-- A generic occupant of table slot `i`. -/
def dummyProc (i : Nat) : Proc :=
  { p_pid := i, p_status := 0, p_sem := 0, p_exited := 0
  , parent_proc := none, p_name := "d", p_numthreads := 0 }

/-- A completely full process table whose last allocation went to slot
50. -/
def tFullAll : ProcTable :=
  { proc := (fun i => if 1 ≤ i ∧ i ≤ MAX_PROC then some (dummyProc i)
                      else none)
  , last_i := 50
  , is_full := true }

/-- An empty process table after one hypothetical allocation at slot 1. -/
def tEmpty : ProcTable :=
  { proc := (fun _ => none), last_i := 1, is_full := false }

/-- A table holding one registered process at slot 3. -/
def tReg3 : ProcTable :=
  { proc := (fun i => if i = 3 then some (dummyProc 3) else none)
  , last_i := 3, is_full := false }

/-- A process at slot 3 whose parent back-reference carries pid 9. -/
def childProc3 : Proc := { dummyProc 3 with parent_proc := some 9 }

/-- A process at slot 4 whose parent back-reference carries pid 8. -/
def childProc4 : Proc := { dummyProc 4 with parent_proc := some 8 }

/-- A table with two children, one referencing parent 9, one parent 8. -/
def tParents : ProcTable :=
  { proc := (fun i => if i = 3 then some childProc3
                      else if i = 4 then some childProc4 else none)
  , last_i := 4, is_full := false }

/-- A file-table-model state with a single live handle 0 of reference
count 1 on vnode 7. -/
def stOne : SysState :=
  { heap := (fun g => if g = 0 then some { countRef := 1, vn := some 7 }
                      else none)
  , vnRefs := (fun _ => 0), closes := [] }

/-- Like `stOne` with reference count 2 (handle shared by two tables). -/
def stTwo : SysState :=
  { heap := (fun g => if g = 0 then some { countRef := 2, vn := some 7 }
                      else none)
  , vnRefs := (fun _ => 0), closes := [] }

/-- The empty file descriptor table. -/
def emptyFT : FDTable := fun _ => none

/-- A file descriptor table whose descriptor 0 references handle 0. -/
def oneFT : FDTable := fun fd => if fd.val = 0 then some 0 else none

/-- The open-file handle of `stOne`. -/
def ofOne : OpenFile := { countRef := 1, vn := some 7 }

/-- The open-file handle of `stTwo`. -/
def ofTwo : OpenFile := { countRef := 2, vn := some 7 }

/-! # Lemmas about the circular pid scan -/

theorem wrapIdx_succ_range (l : Nat) :
    1 ≤ wrapIdx (l + 1) ∧ wrapIdx (l + 1) ≤ MAX_PROC := by
  simp only [wrapIdx, MAX_PROC]
  split <;> omega

theorem cdist_self (x : Nat) : cdist x x = 0 := by
  simp only [cdist, MAX_PROC]
  omega

theorem cdist_lt (a b : Nat) : cdist a b < MAX_PROC := by
  simp only [cdist, MAX_PROC]
  omega

theorem cdist_eq_zero (i j : Nat) (hi1 : 1 ≤ i) (hi2 : i ≤ MAX_PROC)
    (hj1 : 1 ≤ j) (hj2 : j ≤ MAX_PROC) (h : cdist i j = 0) : i = j := by
  simp only [cdist, MAX_PROC] at *
  omega

theorem cdist_step (i j : Nat) (hi1 : 1 ≤ i) (hi2 : i ≤ MAX_PROC)
    (hj1 : 1 ≤ j) (hj2 : j ≤ MAX_PROC) (hne : i ≠ j) :
    cdist (wrapIdx (i + 1)) j + 1 = cdist i j := by
  simp only [cdist, wrapIdx, MAX_PROC] at *
  split <;> omega

theorem cdist_start (l j : Nat) (hl1 : 1 ≤ l) (hl2 : l ≤ MAX_PROC)
    (hj1 : 1 ≤ j) (hj2 : j ≤ MAX_PROC) (hne : j ≠ l) :
    cdist (wrapIdx (l + 1)) j < cdist (wrapIdx (l + 1)) l := by
  simp only [cdist, wrapIdx, MAX_PROC] at *
  split <;> omega

theorem scanLoop_free (t : ProcTable) :
    ∀ fuel i j, scanLoop t fuel i = some j → t.proc j = none := by
  intro fuel
  induction fuel with
  | zero => intro i j h; simp [scanLoop] at h
  | succ f ih =>
    intro i j h
    unfold scanLoop at h
    split at h
    · exact absurd h (by simp)
    · cases hp : t.proc i with
      | none => rw [hp] at h; simp at h; rw [h] at hp; exact hp
      | some q => rw [hp] at h; exact ih _ _ h

theorem scanLoop_range (t : ProcTable) :
    ∀ fuel i j, 1 ≤ i → i ≤ MAX_PROC → scanLoop t fuel i = some j →
      1 ≤ j ∧ j ≤ MAX_PROC := by
  intro fuel
  induction fuel with
  | zero => intro i j _ _ h; simp [scanLoop] at h
  | succ f ih =>
    intro i j hi1 hi2 h
    unfold scanLoop at h
    split at h
    · exact absurd h (by simp)
    · cases hp : t.proc i with
      | none => rw [hp] at h; simp at h; omega
      | some q =>
        rw [hp] at h
        exact ih _ _ (wrapIdx_succ_range i).1 (wrapIdx_succ_range i).2 h

/-- The circular scan succeeds whenever some slot other than `last_i` is
free: by induction on the circular distance from the scan position to the
free slot, the scan reaches the free slot (or an earlier one) strictly
before it can wrap back to `last_i`. -/
theorem scanLoop_finds (t : ProcTable) (hl1 : 1 ≤ t.last_i)
    (hl2 : t.last_i ≤ MAX_PROC) :
    ∀ d fuel i j, 1 ≤ i → i ≤ MAX_PROC → 1 ≤ j → j ≤ MAX_PROC →
      t.proc j = none → cdist i j = d → d < cdist i t.last_i → d < fuel →
      ∃ k, scanLoop t fuel i = some k ∧ t.proc k = none ∧
        1 ≤ k ∧ k ≤ MAX_PROC := by
  intro d
  induction d with
  | zero =>
    intro fuel i j hi1 hi2 hj1 hj2 hfree hd hdl hfuel
    have hij : i = j := cdist_eq_zero i j hi1 hi2 hj1 hj2 hd
    subst hij
    obtain ⟨f, rfl⟩ : ∃ f, fuel = f + 1 := ⟨fuel - 1, by omega⟩
    have hne : i ≠ t.last_i := by
      intro he
      rw [he, cdist_self] at hdl
      omega
    refine ⟨i, ?_, hfree, hi1, hi2⟩
    unfold scanLoop
    rw [if_neg hne, hfree]
  | succ d ih =>
    intro fuel i j hi1 hi2 hj1 hj2 hfree hd hdl hfuel
    obtain ⟨f, rfl⟩ : ∃ f, fuel = f + 1 := ⟨fuel - 1, by omega⟩
    have hne_l : i ≠ t.last_i := by
      intro he
      rw [he, cdist_self] at hdl
      omega
    have hne_j : i ≠ j := by
      intro he
      rw [he, cdist_self] at hd
      omega
    unfold scanLoop
    rw [if_neg hne_l]
    cases hp : t.proc i with
    | none => exact ⟨i, rfl, hp, hi1, hi2⟩
    | some q =>
      have hstep := cdist_step i j hi1 hi2 hj1 hj2 hne_j
      have hstepl := cdist_step i t.last_i hi1 hi2 hl1 hl2 hne_l
      exact ih f (wrapIdx (i + 1)) j (wrapIdx_succ_range i).1
        (wrapIdx_succ_range i).2 hj1 hj2 hfree (by omega) (by omega) (by omega)

/-- C1 (as amended).  Releasing a slot always clears the full flag; and a
subsequent allocation succeeds — finds and assigns a free identifier in
`[1, MAX_PROC]` — whenever some slot OTHER THAN the last-allocated index is
free.  (The unamended claim, that any free slot suffices, is refuted by
`C1_counterexample`: the scan stops at `last_i` without examining it.) -/
theorem C1_release_unfull_alloc_succeeds :
    (∀ t p, is_proc_table_full (proc_end_waitpid t p) = false) ∧
    (∀ t p j, 1 ≤ t.last_i → t.last_i ≤ MAX_PROC → 1 ≤ j → j ≤ MAX_PROC →
      j ≠ t.last_i → t.proc j = none →
      1 ≤ (proc_init_waitpid t p).newproc.p_pid ∧
      (proc_init_waitpid t p).newproc.p_pid ≤ MAX_PROC ∧
      t.proc (proc_init_waitpid t p).newproc.p_pid = none ∧
      (proc_init_waitpid t p).table.proc (proc_init_waitpid t p).newproc.p_pid
        = some (proc_init_waitpid t p).newproc) := by
  constructor
  · intro t p
    rfl
  · intro t p j hl1 hl2 hj1 hj2 hjne hfree
    have hs := wrapIdx_succ_range t.last_i
    have hstart := cdist_start t.last_i j hl1 hl2 hj1 hj2 hjne
    have hfuel : cdist (wrapIdx (t.last_i + 1)) j < MAX_PROC + 1 := by
      have := cdist_lt (wrapIdx (t.last_i + 1)) j
      omega
    obtain ⟨k, hsc, hkfree, hk1, hk2⟩ :=
      scanLoop_finds t hl1 hl2 (cdist (wrapIdx (t.last_i + 1)) j)
        (MAX_PROC + 1) (wrapIdx (t.last_i + 1)) j hs.1 hs.2 hj1 hj2 hfree rfl
        hstart hfuel
    simp only [proc_init_waitpid, hsc]
    exact ⟨hk1, hk2, hkfree, by simp⟩

/-- C1, counterexample to the claim as stated: release slot 50 of a full
table whose last allocation was slot 50.  The full flag is cleared and
slot 50 is free, yet the very next allocation reports Full (assigns no
identifier and re-raises the flag), because the circular scan wraps back to
`last_i` without ever examining slot `last_i` itself. -/
theorem C1_counterexample :
    is_proc_table_full (proc_end_waitpid tFullAll (dummyProc 50)) = false ∧
    (proc_end_waitpid tFullAll (dummyProc 50)).proc 50 = none ∧
    (proc_init_waitpid (proc_end_waitpid tFullAll (dummyProc 50))
       (initProc "n")).newproc.p_pid = 0 ∧
    (proc_init_waitpid (proc_end_waitpid tFullAll (dummyProc 50))
       (initProc "n")).table.is_full = true := by
  decide

/-- C1 witness: on the empty table with `last_i = 1`, slot 2 is free and
distinct from `last_i`, and the allocation indeed assigns a free
identifier. -/
theorem C1_witness :
    (1 ≤ tEmpty.last_i ∧ tEmpty.last_i ≤ MAX_PROC ∧ (1:Nat) ≤ 2 ∧
     (2:Nat) ≤ MAX_PROC ∧ (2:Nat) ≠ tEmpty.last_i ∧ tEmpty.proc 2 = none) ∧
    (1 ≤ (proc_init_waitpid tEmpty (initProc "w")).newproc.p_pid ∧
     (proc_init_waitpid tEmpty (initProc "w")).newproc.p_pid ≤ MAX_PROC ∧
     tEmpty.proc (proc_init_waitpid tEmpty (initProc "w")).newproc.p_pid
       = none ∧
     (proc_init_waitpid tEmpty (initProc "w")).table.proc
       (proc_init_waitpid tEmpty (initProc "w")).newproc.p_pid
       = some (proc_init_waitpid tEmpty (initProc "w")).newproc) ∧
    is_proc_table_full (proc_end_waitpid tEmpty (dummyProc 1)) = false :=
  ⟨by decide,
   C1_release_unfull_alloc_succeeds.2 tEmpty (initProc "w") 2 (by decide)
     (by decide) (by decide) (by decide) (by decide) (by decide),
   C1_release_unfull_alloc_succeeds.1 tEmpty (dummyProc 1)⟩

/-! # Lemmas about registration, release and lookup -/

theorem init_table_preserves_occupied (t : ProcTable) (p : Proc) (pid : Nat)
    (q : Proc) (h : t.proc pid = some q) :
    (proc_init_waitpid t p).table.proc pid = some q := by
  unfold proc_init_waitpid
  cases hsc : scanLoop t (MAX_PROC + 1) (wrapIdx (t.last_i + 1)) with
  | none => simpa using h
  | some k =>
    have hk := scanLoop_free t _ _ _ hsc
    have hne : pid ≠ k := by
      intro he
      rw [he, hk] at h
      cases h
    simpa [hne] using h

theorem tableStep_preserves (t : ProcTable) (op : TableOp) (pid : Nat)
    (q : Proc) (h : t.proc pid = some q) (hav : avoidsRelease pid op) :
    (tableStep t op).proc pid = some q := by
  cases op with
  | alloc p => exact init_table_preserves_occupied t p pid q h
  | release p =>
    have hne : pid ≠ p.p_pid := fun he => hav (by rw [he])
    simpa [tableStep, proc_end_waitpid, hne] using h

theorem foldl_tableStep_preserves (pid : Nat) (q : Proc) :
    ∀ (ops : List TableOp) (t : ProcTable), t.proc pid = some q →
      (∀ op ∈ ops, avoidsRelease pid op) →
      (ops.foldl tableStep t).proc pid = some q := by
  intro ops
  induction ops with
  | nil => intro t h _; exact h
  | cons op rest ih =>
    intro t h hav
    exact ih (tableStep t op)
      (tableStep_preserves t op pid q h (hav op (by simp)))
      (fun o ho => hav o (by simp [ho]))

/-- C5.  Lookup of any identifier outside `[1, MAX_PROC]` (0 and negatives
included) returns empty without failing; and after a successful
registration assigns an identifier, any sequence of further allocations
and releases that never releases that identifier leaves lookup returning
the registered process. -/
theorem C5_lookup_bounds_and_registered :
    (∀ (t : ProcTable) (pid : Int), (pid < 1 ∨ pid > (MAX_PROC : Int)) →
       proc_search_pid t pid = none) ∧
    (∀ (t : ProcTable) (p : Proc) (ops : List TableOp),
       (proc_init_waitpid t p).newproc.p_pid ≠ 0 →
       (∀ op ∈ ops,
         avoidsRelease (proc_init_waitpid t p).newproc.p_pid op) →
       proc_search_pid (ops.foldl tableStep (proc_init_waitpid t p).table)
         ((proc_init_waitpid t p).newproc.p_pid : Int)
         = some (proc_init_waitpid t p).newproc) := by
  constructor
  · intro t pid h
    unfold proc_search_pid
    rw [if_pos]
    simp only [PID_MIN, MAX_PROC] at *
    push_cast
    omega
  · intro t p ops hne hav
    cases hsc : scanLoop t (MAX_PROC + 1) (wrapIdx (t.last_i + 1)) with
    | none => simp [proc_init_waitpid, hsc] at hne
    | some k =>
      have hk := scanLoop_range t _ _ _ (wrapIdx_succ_range t.last_i).1
        (wrapIdx_succ_range t.last_i).2 hsc
      have hpid : (proc_init_waitpid t p).newproc.p_pid = k := by
        simp [proc_init_waitpid, hsc]
      have hslot : (proc_init_waitpid t p).table.proc k
          = some (proc_init_waitpid t p).newproc := by
        simp [proc_init_waitpid, hsc]
      rw [hpid] at hav ⊢
      have hfold := foldl_tableStep_preserves k
        (proc_init_waitpid t p).newproc ops
        (proc_init_waitpid t p).table hslot hav
      unfold proc_search_pid
      rw [if_neg]
      · simpa using hfold
      · simp only [PID_MIN, MAX_PROC] at *
        push_cast
        omega

/-- C5 witness: registration on the empty table assigns slot 2, and lookup
through an empty further trace returns the registered process; lookup of
the out-of-range identifier `-5` returns empty. -/
theorem C5_witness :
    ((proc_init_waitpid tEmpty (initProc "w")).newproc.p_pid ≠ 0) ∧
    proc_search_pid
      (([] : List TableOp).foldl tableStep
        (proc_init_waitpid tEmpty (initProc "w")).table)
      ((proc_init_waitpid tEmpty (initProc "w")).newproc.p_pid : Int)
      = some (proc_init_waitpid tEmpty (initProc "w")).newproc ∧
    proc_search_pid tEmpty (-5) = none :=
  ⟨by decide,
   C5_lookup_bounds_and_registered.2 tEmpty (initProc "w") [] (by decide)
     (by simp),
   C5_lookup_bounds_and_registered.1 tEmpty (-5) (Or.inl (by decide))⟩

/-- C9.  The table invariant "an occupied slot's process carries that
slot's index as its pid" is established by registration for the slot it
assigns, preserved by registration and release, and makes lookup of an
occupied slot return a process whose identifier is the looked-up id. -/
theorem C9_pid_slot_invariant :
    (∀ t p, TableInv t → TableInv (proc_init_waitpid t p).table) ∧
    (∀ t p, (proc_init_waitpid t p).newproc.p_pid ≠ 0 →
       (proc_init_waitpid t p).table.proc
         (proc_init_waitpid t p).newproc.p_pid
         = some (proc_init_waitpid t p).newproc) ∧
    (∀ t p, TableInv t → TableInv (proc_end_waitpid t p)) ∧
    (∀ t pid q, TableInv t → proc_search_pid t pid = some q →
       (q.p_pid : Int) = pid) := by
  refine ⟨?_, ?_, ?_, ?_⟩
  · intro t p hInv i q hi1 hi2 hq
    revert hq
    unfold proc_init_waitpid
    cases hsc : scanLoop t (MAX_PROC + 1) (wrapIdx (t.last_i + 1)) with
    | none =>
      intro hq
      exact hInv i q hi1 hi2 hq
    | some k =>
      simp only
      intro hq
      by_cases hik : i = k
      · subst hik
        rw [if_pos rfl] at hq
        cases hq
        rfl
      · rw [if_neg hik] at hq
        exact hInv i q hi1 hi2 hq
  · intro t p hne
    cases hsc : scanLoop t (MAX_PROC + 1) (wrapIdx (t.last_i + 1)) with
    | none => simp [proc_init_waitpid, hsc] at hne
    | some k => simp [proc_init_waitpid, hsc]
  · intro t p hInv i q hi1 hi2 hq
    unfold proc_end_waitpid at hq
    by_cases hip : i = p.p_pid
    · simp [hip] at hq
    · simp only [hip, if_false] at hq
      exact hInv i q hi1 hi2 hq
  · intro t pid q hInv hq
    unfold proc_search_pid at hq
    split at hq
    · cases hq
    · rename_i hbound
      simp only [PID_MIN, MAX_PROC, not_or, not_lt] at hbound
      have h1 : (1 : Int) ≤ pid := by exact_mod_cast hbound.1
      have h2 : pid ≤ (100 : Int) := by
        have := hbound.2
        simp only [not_lt] at this
        exact_mod_cast this
      have hrange : 1 ≤ pid.toNat ∧ pid.toNat ≤ MAX_PROC := by
        simp only [MAX_PROC]
        omega
      have := hInv pid.toNat q hrange.1 hrange.2 hq
      omega

/-- C9 witness: the one-process table at slot 3 satisfies the invariant,
and lookup of 3 returns a process whose pid is 3. -/
theorem C9_witness :
    TableInv tReg3 ∧ proc_search_pid tReg3 3 = some (dummyProc 3) ∧
    (((dummyProc 3).p_pid : Int) = 3) := by
  have hInv : TableInv tReg3 := by
    intro i p _ _ hp
    by_cases hi : i = 3
    · subst hi
      simp only [tReg3, if_pos rfl] at hp
      cases hp
      rfl
    · simp [tReg3, hi] at hp
  exact ⟨hInv, by decide,
    C9_pid_slot_invariant.2.2.2 tReg3 3 (dummyProc 3) hInv (by decide)⟩

/-! # Lemmas about `proc_rm_parent_link` -/

theorem clearParentSlot_other (pid : Nat) (t : ProcTable) (a i : Nat)
    (hne : a ≠ i) : (clearParentSlot pid t a).proc i = t.proc i := by
  cases hp : t.proc a with
  | none => simp [clearParentSlot, hp]
  | some p =>
    by_cases hpp : p.parent_proc = some pid
    · simp [clearParentSlot, hp, hpp, Ne.symm hne]
    · simp [clearParentSlot, hp, hpp]

theorem clearParentSlot_meta (pid : Nat) (t : ProcTable) (a : Nat) :
    (clearParentSlot pid t a).last_i = t.last_i ∧
    (clearParentSlot pid t a).is_full = t.is_full := by
  cases hp : t.proc a with
  | none => simp [clearParentSlot, hp]
  | some p =>
    by_cases hpp : p.parent_proc = some pid
    · simp [clearParentSlot, hp, hpp]
    · simp [clearParentSlot, hp, hpp]

theorem clearParentSlot_self (pid : Nat) (t : ProcTable) (a : Nat) :
    (clearParentSlot pid t a).proc a = clearParentValue pid (t.proc a) := by
  cases hp : t.proc a with
  | none => simp [clearParentSlot, clearParentValue, hp]
  | some p =>
    by_cases hpp : p.parent_proc = some pid
    · simp [clearParentSlot, clearParentValue, hp, hpp]
    · simp [clearParentSlot, clearParentValue, hp, hpp]

theorem foldl_clear_untouched (pid : Nat) :
    ∀ (L : List Nat) (t : ProcTable) (i : Nat), i ∉ L →
      ((L.foldl (clearParentSlot pid) t).proc i = t.proc i) := by
  intro L
  induction L with
  | nil => intro t i _; rfl
  | cons a rest ih =>
    intro t i hi
    have h1 : a ≠ i := fun he => hi (by simp [he])
    have h2 : i ∉ rest := fun he => hi (by simp [he])
    rw [List.foldl_cons, ih (clearParentSlot pid t a) i h2,
      clearParentSlot_other pid t a i h1]

theorem foldl_clear_meta (pid : Nat) :
    ∀ (L : List Nat) (t : ProcTable),
      ((L.foldl (clearParentSlot pid) t).last_i = t.last_i ∧
       (L.foldl (clearParentSlot pid) t).is_full = t.is_full) := by
  intro L
  induction L with
  | nil => intro t; exact ⟨rfl, rfl⟩
  | cons a rest ih =>
    intro t
    rw [List.foldl_cons]
    refine ⟨?_, ?_⟩
    · rw [(ih (clearParentSlot pid t a)).1, (clearParentSlot_meta pid t a).1]
    · rw [(ih (clearParentSlot pid t a)).2, (clearParentSlot_meta pid t a).2]

theorem foldl_clear_touched (pid : Nat) :
    ∀ (L : List Nat) (t : ProcTable) (i : Nat), L.Nodup → i ∈ L →
      (L.foldl (clearParentSlot pid) t).proc i
        = clearParentValue pid (t.proc i) := by
  intro L
  induction L with
  | nil => intro t i _ hi; cases hi
  | cons a rest ih =>
    intro t i hnd hi
    rw [List.foldl_cons]
    rcases List.mem_cons.mp hi with hia | hir
    · subst hia
      have hnotin : i ∉ rest := (List.nodup_cons.mp hnd).1
      rw [foldl_clear_untouched pid rest _ i hnotin,
        clearParentSlot_self pid t i]
    · have hne : a ≠ i := by
        intro he
        subst he
        exact (List.nodup_cons.mp hnd).1 hir
      rw [ih (clearParentSlot pid t a) i (List.nodup_cons.mp hnd).2 hir,
        clearParentSlot_other pid t a i hne]

/-- C7.  `proc_rm_parent_link pid` clears exactly the parent
back-references carrying `pid`: matching slots keep every other field,
non-matching occupied slots, empty slots, out-of-range slots, `last_i` and
the full flag are all unchanged. -/
theorem C7_rm_parent_link_frame (t : ProcTable) (pid : Nat)
    (_h1 : 1 ≤ pid) (_h2 : pid ≤ MAX_PROC) :
    (∀ i p, 1 ≤ i → i ≤ MAX_PROC → t.proc i = some p →
       p.parent_proc = some pid →
       (proc_rm_parent_link t pid).proc i
         = some { p with parent_proc := none }) ∧
    (∀ i p, 1 ≤ i → i ≤ MAX_PROC → t.proc i = some p →
       p.parent_proc ≠ some pid →
       (proc_rm_parent_link t pid).proc i = some p) ∧
    (∀ i, 1 ≤ i → i ≤ MAX_PROC → t.proc i = none →
       (proc_rm_parent_link t pid).proc i = none) ∧
    (∀ i, i = 0 ∨ MAX_PROC < i →
       (proc_rm_parent_link t pid).proc i = t.proc i) ∧
    (proc_rm_parent_link t pid).last_i = t.last_i ∧
    (proc_rm_parent_link t pid).is_full = t.is_full := by
  have hnd : (List.range' 1 MAX_PROC).Nodup := List.nodup_range' 1 MAX_PROC
  have hmem : ∀ i, 1 ≤ i → i ≤ MAX_PROC → i ∈ List.range' 1 MAX_PROC := by
    intro i hi1 hi2
    rw [List.mem_range'_1]
    omega
  refine ⟨?_, ?_, ?_, ?_, ?_, ?_⟩
  · intro i p hi1 hi2 hp hpp
    unfold proc_rm_parent_link
    rw [foldl_clear_touched pid _ t i hnd (hmem i hi1 hi2), hp]
    simp [clearParentValue, hpp]
  · intro i p hi1 hi2 hp hpp
    unfold proc_rm_parent_link
    rw [foldl_clear_touched pid _ t i hnd (hmem i hi1 hi2), hp]
    simp [clearParentValue, hpp]
  · intro i hi1 hi2 hp
    unfold proc_rm_parent_link
    rw [foldl_clear_touched pid _ t i hnd (hmem i hi1 hi2), hp]
    rfl
  · intro i hi
    unfold proc_rm_parent_link
    refine foldl_clear_untouched pid _ t i ?_
    intro hmem'
    rw [List.mem_range'_1] at hmem'
    simp only [MAX_PROC] at *
    omega
  · exact (foldl_clear_meta pid _ t).1
  · exact (foldl_clear_meta pid _ t).2

/-- C7 witness: severing parent 9 in a table with one child of parent 9
(slot 3) and one child of parent 8 (slot 4) clears exactly slot 3's
back-reference. -/
theorem C7_witness :
    ((1:Nat) ≤ 9 ∧ (9:Nat) ≤ MAX_PROC ∧ tParents.proc 3 = some childProc3 ∧
     childProc3.parent_proc = some 9 ∧ tParents.proc 4 = some childProc4 ∧
     childProc4.parent_proc ≠ some 9) ∧
    (proc_rm_parent_link tParents 9).proc 3
      = some { childProc3 with parent_proc := none } ∧
    (proc_rm_parent_link tParents 9).proc 4 = some childProc4 :=
  ⟨by decide,
   (C7_rm_parent_link_frame tParents 9 (by decide) (by decide)).1 3
     childProc3 (by decide) (by decide) (by decide) (by decide),
   (C7_rm_parent_link_frame tParents 9 (by decide) (by decide)).2.1 4
     childProc4 (by decide) (by decide) (by decide) (by decide)⟩

/-! # The wait/exit rendezvous -/

/-- C2.  After the terminating side writes status `s` and signals, a single
`proc_wait` call returns exactly `s`, and the destroy performed inside the
wait frees the table slot, so a subsequent lookup of the identifier
returns empty. -/
theorem C2_wait_roundtrip (t : ProcTable) (p : Proc) (s : Int)
    (_h1 : 1 ≤ p.p_pid) (_h2 : p.p_pid ≤ MAX_PROC)
    (_hreg : t.proc p.p_pid = some p) :
    proc_wait (aliasTable t p s) (exitedProc p s)
      = some (s, proc_destroy_table (aliasTable t p s) (exitedProc p s)) ∧
    proc_search_pid
      (proc_destroy_table (aliasTable t p s) (exitedProc p s))
      (p.p_pid : Int) = none := by
  constructor
  · unfold proc_wait exitedProc proc_signal_end
    simp
  · unfold proc_search_pid
    rw [if_neg]
    · unfold proc_destroy_table proc_end_waitpid exitedProc proc_signal_end
      simp
    · simp only [PID_MIN, MAX_PROC, not_or, not_lt] at *
      omega

/-- C2 witness: the registered process at slot 3 exits with status 42; the
wait returns 42 and the subsequent lookup of 3 is empty. -/
theorem C2_witness :
    ((1:Nat) ≤ (dummyProc 3).p_pid ∧ (dummyProc 3).p_pid ≤ MAX_PROC ∧
     tReg3.proc (dummyProc 3).p_pid = some (dummyProc 3)) ∧
    proc_wait (aliasTable tReg3 (dummyProc 3) 42)
      (exitedProc (dummyProc 3) 42)
      = some (42, proc_destroy_table (aliasTable tReg3 (dummyProc 3) 42)
                    (exitedProc (dummyProc 3) 42)) ∧
    proc_search_pid
      (proc_destroy_table (aliasTable tReg3 (dummyProc 3) 42)
        (exitedProc (dummyProc 3) 42))
      (((dummyProc 3).p_pid : Int)) = none :=
  ⟨by decide,
   C2_wait_roundtrip tReg3 (dummyProc 3) 42 (by decide) (by decide)
     (by decide)⟩

/-! # Creation rollback -/

/-- C4.  When registration reports a full table, `proc_create` returns
`NULL`, leaves every table slot unchanged (the process is not registered),
and has freed every partially allocated resource: the duplicated name,
the PCB spinlock, the file-table lock and the PCB memory. -/
theorem C4_create_full_rollback (t : ProcTable) (name : String)
    (hfull : (proc_init_waitpid t (initProc name)).newproc.p_pid = 0) :
    (proc_create t name).result = none ∧
    (∀ i, (proc_create t name).table.proc i = t.proc i) ∧
    (proc_create t name).held = [] := by
  cases hsc : scanLoop t (MAX_PROC + 1) (wrapIdx (t.last_i + 1)) with
  | some k =>
    exfalso
    have hk := scanLoop_range t _ _ _ (wrapIdx_succ_range t.last_i).1
      (wrapIdx_succ_range t.last_i).2 hsc
    simp [proc_init_waitpid, hsc] at hfull
    omega
  | none =>
    refine ⟨?_, ?_, ?_⟩ <;>
      simp [proc_create, proc_init_waitpid, hsc, is_proc_table_full]

/-- C4 witness: creation on the completely full table fails, keeps every
slot as it was, and holds no resource on return. -/
theorem C4_witness :
    ((proc_init_waitpid tFullAll (initProc "w")).newproc.p_pid = 0) ∧
    ((proc_create tFullAll "w").result = none ∧
     (∀ i, (proc_create tFullAll "w").table.proc i = tFullAll.proc i) ∧
     (proc_create tFullAll "w").held = []) :=
  ⟨by decide, C4_create_full_rollback tFullAll "w" (by decide)⟩

/-! # Lemmas about the open-file heap -/

theorem closeSlot_heap_other (st : SysState) (a g : Nat) (hne : g ≠ a) :
    (closeSlot st (some a)).heap g = st.heap g := by
  cases ha : st.heap a with
  | none => simp [closeSlot, ha]
  | some of =>
    by_cases hc : of.countRef - 1 = 0
    · simp [closeSlot, ha, hc, hne]
    · simp [closeSlot, ha, hc, hne]

theorem incrSlot_heap_other (st : SysState) (a g : Nat) (hne : g ≠ a) :
    (incrSlot st (some a)).heap g = st.heap g := by
  cases ha : st.heap a with
  | none => simp [incrSlot, ha]
  | some of => simp [incrSlot, ha, hne]

theorem teardown_heap_dead (h : Nat) :
    ∀ (L : List (Option Nat)) (st : SysState), st.heap h = none →
      (L.foldl closeSlot st).heap h = none := by
  intro L
  induction L with
  | nil => intro st hh; exact hh
  | cons slot rest ih =>
    intro st hh
    rw [List.foldl_cons]
    apply ih
    cases slot with
    | none => exact hh
    | some a =>
      by_cases hga : h = a
      · subst hga
        simp [closeSlot, hh]
      · rw [closeSlot_heap_other st a h hga]
        exact hh

theorem incrfold_heap_dead (h : Nat) :
    ∀ (L : List (Option Nat)) (st : SysState), st.heap h = none →
      (L.foldl incrSlot st).heap h = none := by
  intro L
  induction L with
  | nil => intro st hh; exact hh
  | cons slot rest ih =>
    intro st hh
    rw [List.foldl_cons]
    apply ih
    cases slot with
    | none => exact hh
    | some a =>
      by_cases hga : h = a
      · subst hga
        simp [incrSlot, hh]
      · rw [incrSlot_heap_other st a h hga]
        exact hh

/-- Effect of a full teardown loop on one handle `h`: the reference count
drops by the number of slots of the torn-down table referencing `h`; the
handle is destroyed exactly when that number equals its (positive)
reference count. -/
theorem teardown_heap (h : Nat) :
    ∀ (L : List (Option Nat)) (st : SysState) (of : OpenFile),
      st.heap h = some of → ((L.count (some h) : Int)) ≤ of.countRef →
      (L.foldl closeSlot st).heap h =
        (if (L.count (some h) : Int) = of.countRef ∧ 0 < of.countRef
         then none
         else some { of with
           countRef := of.countRef - (L.count (some h) : Int) }) := by
  intro L
  induction L with
  | nil =>
    intro st of hof hle
    simp only [List.count_nil, Nat.cast_zero, List.foldl_nil]
    split_ifs with hc
    · omega
    · rw [hof]
      congr 1
      rw [Int.sub_zero]
  | cons slot rest ih =>
    intro st of hof hle
    rw [List.foldl_cons]
    cases slot with
    | none =>
      have hcnt : (none :: rest).count (some h) = rest.count (some h) := by
        simp [List.count_cons]
      rw [hcnt] at hle ⊢
      exact ih st of hof hle
    | some a =>
      by_cases hah : a = h
      · subst hah
        have hcnt : (some a :: rest).count (some a)
            = rest.count (some a) + 1 := by
          simp [List.count_cons]
        rw [hcnt] at hle ⊢
        by_cases hc : of.countRef - 1 = 0
        · have hc1 : of.countRef = 1 := by omega
          have hrest : rest.count (some a) = 0 := by
            have : ((rest.count (some a) + 1 : Nat) : Int) ≤ 1 := by
              rw [← hc1]; exact hle
            push_cast at this
            omega
          have hstep : (closeSlot st (some a)).heap a = none := by
            simp [closeSlot, hof, hc]
          rw [teardown_heap_dead a rest _ hstep, if_pos]
          refine ⟨?_, by omega⟩
          rw [hrest, hc1]
          norm_num
        · have hstep : (closeSlot st (some a)).heap a
              = some { of with countRef := of.countRef - 1 } := by
            simp [closeSlot, hof, hc]
          have hle' : ((rest.count (some a) : Nat) : Int)
              ≤ of.countRef - 1 := by
            push_cast at hle ⊢
            omega
          rw [ih (closeSlot st (some a))
            { of with countRef := of.countRef - 1 } hstep hle']
          have hiff : ((rest.count (some a) : Int) = of.countRef - 1 ∧
              (0:Int) < of.countRef - 1) ↔
              (((rest.count (some a) + 1 : Nat) : Int) = of.countRef ∧
              (0:Int) < of.countRef) := by
            push_cast
            omega
          rw [if_congr hiff rfl rfl]
          split_ifs with hcond
          · rfl
          · congr 2
            push_cast
            omega
      · have hne : h ≠ a := fun he => hah he.symm
        have hcnt : (some a :: rest).count (some h)
            = rest.count (some h) := by
          simp [List.count_cons, hah]
        rw [hcnt] at hle ⊢
        have hof' : (closeSlot st (some a)).heap h = some of := by
          rw [closeSlot_heap_other st a h hne]
          exact hof
        exact ih (closeSlot st (some a)) of hof' hle

/-- Effect of the copy loop's increments on one handle `h`: the reference
count rises by the number of source slots referencing `h`. -/
theorem incrfold_heap (h : Nat) :
    ∀ (L : List (Option Nat)) (st : SysState) (of : OpenFile),
      st.heap h = some of →
      (L.foldl incrSlot st).heap h
        = some { of with
            countRef := of.countRef + (L.count (some h) : Int) } := by
  intro L
  induction L with
  | nil =>
    intro st of hof
    simp only [List.count_nil, Nat.cast_zero, List.foldl_nil, Int.add_zero]
    rw [hof]
  | cons slot rest ih =>
    intro st of hof
    rw [List.foldl_cons]
    cases slot with
    | none =>
      have hcnt : (none :: rest).count (some h) = rest.count (some h) := by
        simp [List.count_cons]
      rw [hcnt]
      exact ih st of hof
    | some a =>
      by_cases hah : a = h
      · subst hah
        have hcnt : (some a :: rest).count (some a)
            = rest.count (some a) + 1 := by
          simp [List.count_cons]
        rw [hcnt]
        have hstep : (incrSlot st (some a)).heap a
            = some { of with countRef := of.countRef + 1 } := by
          simp [incrSlot, hof]
        rw [ih (incrSlot st (some a))
          { of with countRef := of.countRef + 1 } hstep]
        congr 2
        push_cast
        omega
      · have hne : h ≠ a := fun he => hah he.symm
        have hcnt : (some a :: rest).count (some h)
            = rest.count (some h) := by
          simp [List.count_cons, hah]
        rw [hcnt]
        have hof' : (incrSlot st (some a)).heap h = some of := by
          rw [incrSlot_heap_other st a h hne]
          exact hof
        exact ih (incrSlot st (some a)) of hof'

/-! # Lemmas about the copy loop -/

theorem copy_fold_state (psrc : FDTable) :
    ∀ (L : List (Fin OPEN_MAX)) (d : FDTable) (st : SysState),
      (L.foldl (copyStep psrc) (d, st)).2
        = (L.map (fun fd => psrc fd)).foldl incrSlot st := by
  intro L
  induction L with
  | nil => intro d st; rfl
  | cons fd rest ih =>
    intro d st
    rw [List.foldl_cons, List.map_cons, List.foldl_cons]
    exact ih _ _

theorem copy_fold_table_untouched (psrc : FDTable) :
    ∀ (L : List (Fin OPEN_MAX)) (d : FDTable) (st : SysState)
      (fd : Fin OPEN_MAX), fd ∉ L →
      (L.foldl (copyStep psrc) (d, st)).1 fd = d fd := by
  intro L
  induction L with
  | nil => intro d st fd _; rfl
  | cons a rest ih =>
    intro d st fd hfd
    rw [List.foldl_cons]
    have h1 : fd ∉ rest := fun he => hfd (by simp [he])
    have h2 : fd ≠ a := fun he => hfd (by simp [he])
    rw [ih _ _ fd h1]
    simp [copyStep, h2]

theorem copy_fold_table_touched (psrc : FDTable) :
    ∀ (L : List (Fin OPEN_MAX)) (d : FDTable) (st : SysState)
      (fd : Fin OPEN_MAX), L.Nodup → fd ∈ L →
      (L.foldl (copyStep psrc) (d, st)).1 fd = psrc fd := by
  intro L
  induction L with
  | nil => intro d st fd _ hfd; cases hfd
  | cons a rest ih =>
    intro d st fd hnd hfd
    rw [List.foldl_cons]
    rcases List.mem_cons.mp hfd with hfa | hfr
    · subst hfa
      have hnotin : fd ∉ rest := (List.nodup_cons.mp hnd).1
      rw [copy_fold_table_untouched psrc rest _ _ fd hnotin]
      simp [copyStep]
    · exact ih _ _ fd (List.nodup_cons.mp hnd).2 hfr

theorem copy_table_eq (psrc pdest : FDTable) (st : SysState) :
    ∀ fd : Fin OPEN_MAX, (proc_file_table_copy psrc pdest st).1 fd
      = psrc fd := by
  intro fd
  exact copy_fold_table_touched psrc (List.finRange OPEN_MAX) pdest st fd
    (List.nodup_finRange OPEN_MAX) (List.mem_finRange fd)

theorem copy_state_eq (psrc pdest : FDTable) (st : SysState) :
    (proc_file_table_copy psrc pdest st).2
      = (List.ofFn psrc).foldl incrSlot st := by
  unfold proc_file_table_copy
  rw [copy_fold_state psrc (List.finRange OPEN_MAX) pdest st,
    ← List.ofFn_eq_map]

theorem countTable_pos (T : FDTable) (h : Nat) (fd : Fin OPEN_MAX)
    (hs : T fd = some h) : 1 ≤ countTable T h := by
  rw [countTable, Nat.succ_le_iff, List.count_pos_iff]
  rw [List.mem_ofFn]
  exact ⟨fd, hs⟩

theorem countTable_mem_le_slotCount (T : FDTable) (tables : List FDTable)
    (h : Nat) (hT : T ∈ tables) : countTable T h ≤ slotCount tables h := by
  exact List.le_sum_of_mem (List.mem_map.mpr ⟨T, hT, rfl⟩)

theorem slotCount_cons (T : FDTable) (rest : List FDTable) (h : Nat) :
    slotCount (T :: rest) h = countTable T h + slotCount rest h := by
  simp [slotCount]

/-- C3 (as amended).  The handle-refcount invariant is preserved by
`proc_destroy` unconditionally, and by `proc_file_table_copy` provided
every destination slot is empty beforehand (as for a freshly created,
zeroed table).  (The unamended claim — preservation by the copy for
arbitrary destinations — is refuted by `C3_counterexample`: the copy
overwrites destination slots without decrementing the displaced handles.)
-/
theorem C3_refcount_invariant_preservation :
    (∀ (T : FDTable) (rest : List FDTable) (st : SysState),
       RefInv (T :: rest) st → RefInv rest (proc_destroy_filetable st T)) ∧
    (∀ (psrc pdest : FDTable) (rest : List FDTable) (st : SysState),
       RefInv (psrc :: pdest :: rest) st → (∀ fd, pdest fd = none) →
       RefInv (psrc :: (proc_file_table_copy psrc pdest st).1 :: rest)
         (proc_file_table_copy psrc pdest st).2) := by
  constructor
  · rintro T rest st ⟨hcnt, hlive⟩
    constructor
    · intro h of' hof'
      cases hh : st.heap h with
      | none =>
        rw [proc_destroy_filetable, teardown_heap_dead h _ st hh] at hof'
        cases hof'
      | some of =>
        have hc := hcnt h of hh
        have hrfl : (List.ofFn T).count (some h) = countTable T h := rfl
        have hle : ((List.ofFn T).count (some h) : Int) ≤ of.countRef := by
          rw [hrfl, hc, slotCount_cons]
          push_cast
          omega
        rw [proc_destroy_filetable, teardown_heap h _ st of hh hle] at hof'
        split_ifs at hof' with hcond
        cases hof'
        show of.countRef - ((List.ofFn T).count (some h) : Int)
          = ((slotCount rest h : Nat) : Int)
        rw [hrfl]
        simp only [slotCount_cons] at hc
        push_cast at hc ⊢
        omega
    · intro T' hT' fd h hs
      have hlive' := hlive T' (List.mem_cons_of_mem T hT') fd h hs
      cases hh : st.heap h with
      | none => exact absurd hh hlive'
      | some of =>
        have hc := hcnt h of hh
        have hT'le := countTable_mem_le_slotCount T' rest h hT'
        have hpos := countTable_pos T' h fd hs
        have hrfl : (List.ofFn T).count (some h) = countTable T h := rfl
        have hle : ((List.ofFn T).count (some h) : Int) ≤ of.countRef := by
          rw [hrfl, hc, slotCount_cons]
          push_cast
          omega
        rw [proc_destroy_filetable, teardown_heap h _ st of hh hle]
        rw [if_neg]
        · exact Option.some_ne_none _
        · rintro ⟨heq, hpos'⟩
          rw [hrfl] at heq
          simp only [slotCount_cons] at hc
          push_cast at hc heq
          omega
  · rintro psrc pdest rest st ⟨hcnt, hlive⟩ hde
    have htab : (proc_file_table_copy psrc pdest st).1 = psrc :=
      funext (copy_table_eq psrc pdest st)
    rw [htab, copy_state_eq]
    constructor
    · intro h of' hof'
      cases hh : st.heap h with
      | none =>
        rw [incrfold_heap_dead h _ st hh] at hof'
        cases hof'
      | some of =>
        rw [incrfold_heap h _ st of hh] at hof'
        cases hof'
        have hc := hcnt h of hh
        have hd0 : countTable pdest h = 0 := by
          rw [countTable, List.count_eq_zero]
          intro hmem
          rw [List.mem_ofFn] at hmem
          obtain ⟨fd, hfd⟩ := hmem
          rw [hde fd] at hfd
          cases hfd
        have hrfl : (List.ofFn psrc).count (some h) = countTable psrc h := rfl
        show of.countRef + ((List.ofFn psrc).count (some h) : Int)
          = ((slotCount (psrc :: psrc :: rest) h : Nat) : Int)
        rw [hrfl]
        simp only [slotCount_cons] at hc ⊢
        push_cast at hc ⊢
        omega
    · intro T' hT' fd h hs
      have hne : st.heap h ≠ none := by
        rcases List.mem_cons.mp hT' with rfl | hT2
        · exact hlive T' (by simp) fd h hs
        · rcases List.mem_cons.mp hT2 with rfl | hT3
          · exact hlive T' (by simp) fd h hs
          · exact hlive T' (by simp [hT3]) fd h hs
      cases hh : st.heap h with
      | none => exact absurd hh hne
      | some of =>
        rw [incrfold_heap h _ st of hh]
        exact Option.some_ne_none _

/-- C3, counterexample to the claim as stated: a system of two processes
satisfying the invariant, where the duplication source is empty and the
destination references a live handle.  The copy clears the destination
slot without decrementing the displaced handle, so afterwards the handle's
reference count (1) no longer equals the number of slots referencing it
(0). -/
theorem C3_counterexample :
    RefInv [emptyFT, oneFT] stOne ∧
    ¬ RefInv [emptyFT, (proc_file_table_copy emptyFT oneFT stOne).1]
        (proc_file_table_copy emptyFT oneFT stOne).2 := by
  constructor
  · constructor
    · intro h of hof
      by_cases hh : h = 0
      · subst hh
        have heq : stOne.heap 0 = some ofOne := rfl
        rw [heq, Option.some_inj] at hof
        subst hof
        decide
      · have heq : stOne.heap h = none := by simp [stOne, hh]
        rw [heq] at hof
        cases hof
    · intro T hT fd h hs
      rcases List.mem_cons.mp hT with rfl | hT2
      · simp [emptyFT] at hs
      · rcases List.mem_cons.mp hT2 with rfl | hT3
        · by_cases hfd : fd.val = 0
          · have hh : h = 0 := by
              simp only [oneFT, hfd, if_pos, Option.some_inj] at hs
              omega
            subst hh
            simp [stOne]
          · simp [oneFT, hfd] at hs
        · cases hT3
  · intro hInv
    have hviol := hInv.1 0 ofOne (by decide)
    revert hviol
    decide

/-- C3 witness: the invariant holds for a one-process system with one
handle of count 1, and destroying that process preserves it (for the empty
remaining system). -/
theorem C3_witness :
    RefInv [oneFT] stOne ∧
    RefInv [] (proc_destroy_filetable stOne oneFT) := by
  have hInv : RefInv [oneFT] stOne := by
    constructor
    · intro h of hof
      by_cases hh : h = 0
      · subst hh
        have heq : stOne.heap 0 = some ofOne := rfl
        rw [heq, Option.some_inj] at hof
        subst hof
        decide
      · have heq : stOne.heap h = none := by simp [stOne, hh]
        rw [heq] at hof
        cases hof
    · intro T hT fd h hs
      rcases List.mem_cons.mp hT with rfl | hT2
      · by_cases hfd : fd.val = 0
        · have hh : h = 0 := by
            simp only [oneFT, hfd, if_pos, Option.some_inj] at hs
            omega
          subst hh
          simp [stOne]
        · simp [oneFT, hfd] at hs
      · cases hT2
  exact ⟨hInv, C3_refcount_invariant_preservation.1 oneFT [] stOne hInv⟩

/-- C10.  The copy assigns `destination[fd] := source[fd]` for every
descriptor unconditionally — an empty source slot clears whatever the
destination held — and every handle's reference count is only ever raised
(by the number of source slots referencing it), never decremented; in
particular no displaced destination handle is decremented. -/
theorem C10_copy_unconditional_overwrite (psrc pdest : FDTable)
    (st : SysState) :
    (∀ fd : Fin OPEN_MAX,
       (proc_file_table_copy psrc pdest st).1 fd = psrc fd) ∧
    (∀ h of, st.heap h = some of →
       (proc_file_table_copy psrc pdest st).2.heap h
         = some { of with
             countRef := of.countRef + (countTable psrc h : Int) } ∧
       of.countRef ≤ of.countRef + (countTable psrc h : Int)) := by
  constructor
  · exact copy_table_eq psrc pdest st
  · intro h of hof
    rw [copy_state_eq]
    refine ⟨incrfold_heap h (List.ofFn psrc) st of hof, ?_⟩
    have hnn : (0 : Int) ≤ (countTable psrc h : Int) := Int.natCast_nonneg _
    omega

/-! # Lemmas about the `vfs_close` log -/

theorem teardown_closes_dead (v : Nat) :
    ∀ (L : List (Option Nat)) (st : SysState),
      (∀ g og, st.heap g = some og → og.vn ≠ some v) →
      ((L.foldl closeSlot st).closes.count v = st.closes.count v ∧
       (∀ g og, (L.foldl closeSlot st).heap g = some og →
         og.vn ≠ some v)) := by
  intro L
  induction L with
  | nil => intro st hv; exact ⟨rfl, hv⟩
  | cons slot rest ih =>
    intro st hv
    rw [List.foldl_cons]
    have hstep : (closeSlot st slot).closes.count v = st.closes.count v ∧
        (∀ g og, (closeSlot st slot).heap g = some og →
          og.vn ≠ some v) := by
      cases slot with
      | none => exact ⟨rfl, hv⟩
      | some a =>
        cases ha : st.heap a with
        | none =>
          constructor
          · simp [closeSlot, ha]
          · intro g og hg
            by_cases hga : g = a
            · subst hga
              simp only [closeSlot, ha] at hg
              cases hg
            · rw [closeSlot_heap_other st a g hga] at hg
              exact hv g og hg
        | some og =>
          have hogv := hv a og ha
          by_cases hc : og.countRef - 1 = 0
          · constructor
            · cases hvn : og.vn with
              | none => simp [closeSlot, ha, hc, hvn]
              | some w =>
                have hw : w ≠ v := fun he => hogv (by rw [hvn, he])
                simp [closeSlot, ha, hc, hvn, List.count_append,
                  List.count_singleton, hw]
            · intro g og' hg
              by_cases hga : g = a
              · subst hga
                have hnone : (closeSlot st (some g)).heap g = none := by
                  simp [closeSlot, ha, hc]
                rw [hnone] at hg
                cases hg
              · rw [closeSlot_heap_other st a g hga] at hg
                exact hv g og' hg
          · constructor
            · simp [closeSlot, ha, hc]
            · intro g og' hg
              by_cases hga : g = a
              · subst hga
                have hsome : (closeSlot st (some g)).heap g
                    = some { og with countRef := og.countRef - 1 } := by
                  simp [closeSlot, ha, hc]
                rw [hsome, Option.some_inj] at hg
                subst hg
                exact hogv
              · rw [closeSlot_heap_other st a g hga] at hg
                exact hv g og' hg
    obtain ⟨h1, h2⟩ := hstep
    obtain ⟨h3, h4⟩ := ih (closeSlot st slot) h2
    exact ⟨by rw [h3, h1], h4⟩

/-- Effect of a teardown on the close log for the vnode `v` of one handle
`h`, when no other live handle shares `v`: the vnode is closed exactly
once if the loop destroys `h`, and not at all otherwise. -/
theorem teardown_closes (h v : Nat) :
    ∀ (L : List (Option Nat)) (st : SysState) (of : OpenFile),
      st.heap h = some of → of.vn = some v →
      (∀ g og, g ≠ h → st.heap g = some og → og.vn ≠ some v) →
      ((L.count (some h) : Int)) ≤ of.countRef →
      ((L.foldl closeSlot st).closes.count v
         = st.closes.count v
           + (if (L.count (some h) : Int) = of.countRef ∧ 0 < of.countRef
              then 1 else 0)) ∧
      (∀ g og, g ≠ h → (L.foldl closeSlot st).heap g = some og →
        og.vn ≠ some v) := by
  intro L
  induction L with
  | nil =>
    intro st of hof hvn huniq hle
    constructor
    · rw [if_neg]
      · simp
      · rintro ⟨h1, h2⟩
        simp only [List.count_nil, Nat.cast_zero] at h1
        omega
    · exact huniq
  | cons slot rest ih =>
    intro st of hof hvn huniq hle
    rw [List.foldl_cons]
    cases slot with
    | none =>
      have hcnt : (none :: rest).count (some h) = rest.count (some h) := by
        simp [List.count_cons]
      rw [hcnt] at hle ⊢
      exact ih st of hof hvn huniq hle
    | some a =>
      by_cases hah : a = h
      · subst hah
        have hcnt : (some a :: rest).count (some a)
            = rest.count (some a) + 1 := by
          simp [List.count_cons]
        rw [hcnt] at hle ⊢
        by_cases hc : of.countRef - 1 = 0
        · have hc1 : of.countRef = 1 := by omega
          have hrest : rest.count (some a) = 0 := by
            push_cast at hle
            omega
          have hstep : (closeSlot st (some a)).heap a = none := by
            simp [closeSlot, hof, hc]
          have hcl : (closeSlot st (some a)).closes = st.closes ++ [v] := by
            simp [closeSlot, hof, hc, hvn]
          have huniq' : ∀ g og, (closeSlot st (some a)).heap g = some og →
              og.vn ≠ some v := by
            intro g og hg
            by_cases hgh : g = a
            · subst hgh
              rw [hstep] at hg
              cases hg
            · rw [closeSlot_heap_other st a g hgh] at hg
              exact huniq g og hgh hg
          obtain ⟨hcl2, huniq2⟩ :=
            teardown_closes_dead v rest (closeSlot st (some a)) huniq'
          constructor
          · have hpos : ((rest.count (some a) + 1 : Nat) : Int)
                = of.countRef ∧ (0:Int) < of.countRef := by
              constructor
              · rw [hrest, hc1]
                norm_num
              · omega
            have hcount1 : (st.closes ++ [v]).count v
                = st.closes.count v + 1 := by
              simp [List.count_append]
            rw [hcl2, hcl, hcount1, if_pos hpos]
          · intro g og hgh hg
            exact huniq2 g og hg
        · have hstep : (closeSlot st (some a)).heap a
              = some { of with countRef := of.countRef - 1 } := by
            simp [closeSlot, hof, hc]
          have hcl : (closeSlot st (some a)).closes = st.closes := by
            simp [closeSlot, hof, hc]
          have huniq' : ∀ g og, g ≠ a →
              (closeSlot st (some a)).heap g = some og →
              og.vn ≠ some v := by
            intro g og hgh hg
            rw [closeSlot_heap_other st a g hgh] at hg
            exact huniq g og hgh hg
          have hle' : ((rest.count (some a) : Nat) : Int)
              ≤ of.countRef - 1 := by
            push_cast at hle ⊢
            omega
          obtain ⟨hcl2, huniq2⟩ := ih (closeSlot st (some a))
            { of with countRef := of.countRef - 1 } hstep hvn huniq' hle'
          constructor
          · rw [hcl2, hcl]
            congr 1
            have hiff : ((rest.count (some a) : Int) = of.countRef - 1 ∧
                (0:Int) < of.countRef - 1) ↔
                (((rest.count (some a) + 1 : Nat) : Int) = of.countRef ∧
                (0:Int) < of.countRef) := by
              push_cast
              omega
            rw [if_congr hiff rfl rfl]
          · exact huniq2
      · have hne : h ≠ a := fun he => hah he.symm
        have hcnt : (some a :: rest).count (some h)
            = rest.count (some h) := by
          simp [List.count_cons, hah]
        rw [hcnt] at hle ⊢
        have hof' : (closeSlot st (some a)).heap h = some of := by
          rw [closeSlot_heap_other st a h hne]
          exact hof
        have huniq' : ∀ g og, g ≠ h →
            (closeSlot st (some a)).heap g = some og →
            og.vn ≠ some v := by
          intro g og hgh hg
          by_cases hga : g = a
          · subst hga
            cases ha : st.heap g with
            | none =>
              simp only [closeSlot, ha] at hg
              cases hg
            | some og2 =>
              have hog2 := huniq g og2 hgh ha
              by_cases hc : og2.countRef - 1 = 0
              · have hnone : (closeSlot st (some g)).heap g = none := by
                  simp [closeSlot, ha, hc]
                rw [hnone] at hg
                cases hg
              · have hsome : (closeSlot st (some g)).heap g
                    = some { og2 with countRef := og2.countRef - 1 } := by
                  simp [closeSlot, ha, hc]
                rw [hsome, Option.some_inj] at hg
                subst hg
                exact hog2
          · rw [closeSlot_heap_other st a g hga] at hg
            exact huniq g og hgh hg
        have hclstep : (closeSlot st (some a)).closes.count v
            = st.closes.count v := by
          cases ha : st.heap a with
          | none => simp [closeSlot, ha]
          | some og2 =>
            have hog2 := huniq a og2 hah ha
            by_cases hc : og2.countRef - 1 = 0
            · cases hvn2 : og2.vn with
              | none => simp [closeSlot, ha, hc, hvn2]
              | some w =>
                have hw : w ≠ v := fun he => hog2 (by rw [hvn2, he])
                simp [closeSlot, ha, hc, hvn2, List.count_append,
                  List.count_singleton, hw]
            · simp [closeSlot, ha, hc]
        obtain ⟨hcl2, huniq2⟩ :=
          ih (closeSlot st (some a)) of hof' hvn huniq' hle
        exact ⟨by rw [hcl2, hclstep], huniq2⟩

/-- C6.  If tables A and B are the only referencers of a shared handle
(its count is the sum of their slot counts, both positive) whose vnode no
other live handle shares, then tearing down A's table alone leaves the
handle live with a positive count and does not close the vnode; tearing
down B's table afterwards destroys the handle and invokes the vnode close
exactly once over the whole scenario. -/
theorem C6_shared_handle_close_once (A B : FDTable) (st : SysState)
    (h v : Nat) (of : OpenFile)
    (hof : st.heap h = some of) (hvn : of.vn = some v)
    (huniq : ∀ g og, g ≠ h → st.heap g = some og → og.vn ≠ some v)
    (hcnt : of.countRef = (countTable A h : Int) + (countTable B h : Int))
    (_hA : 1 ≤ countTable A h) (hB : 1 ≤ countTable B h) :
    (∃ ofA, (proc_destroy_filetable st A).heap h = some ofA ∧
       0 < ofA.countRef) ∧
    (proc_destroy_filetable st A).closes.count v = st.closes.count v ∧
    (proc_destroy_filetable (proc_destroy_filetable st A) B).heap h
      = none ∧
    (proc_destroy_filetable
        (proc_destroy_filetable st A) B).closes.count v
      = st.closes.count v + 1 := by
  have hrA : (List.ofFn A).count (some h) = countTable A h := rfl
  have hrB : (List.ofFn B).count (some h) = countTable B h := rfl
  have hleA : ((List.ofFn A).count (some h) : Int) ≤ of.countRef := by
    rw [hrA, hcnt]
    omega
  have hcondA : ¬(((List.ofFn A).count (some h) : Int) = of.countRef ∧
      (0:Int) < of.countRef) := by
    rintro ⟨he, _⟩
    rw [hrA, hcnt] at he
    omega
  have hheapA : (proc_destroy_filetable st A).heap h
      = some { of with
          countRef := of.countRef - ((List.ofFn A).count (some h) : Int) } := by
    rw [proc_destroy_filetable, teardown_heap h _ st of hof hleA,
      if_neg hcondA]
  have hclA := teardown_closes h v (List.ofFn A) st of hof hvn huniq hleA
  have hposA : (0:Int) < of.countRef - ((List.ofFn A).count (some h) : Int) := by
    rw [hrA, hcnt]
    omega
  have hleB : ((List.ofFn B).count (some h) : Int)
      ≤ of.countRef - ((List.ofFn A).count (some h) : Int) := by
    rw [hrA, hrB, hcnt]
    omega
  have hcondB : ((List.ofFn B).count (some h) : Int)
        = of.countRef - ((List.ofFn A).count (some h) : Int) ∧
      (0:Int) < of.countRef - ((List.ofFn A).count (some h) : Int) := by
    refine ⟨?_, hposA⟩
    rw [hrA, hrB, hcnt]
    omega
  have hheapB : (proc_destroy_filetable
      (proc_destroy_filetable st A) B).heap h = none := by
    rw [proc_destroy_filetable, teardown_heap h _ _ _ hheapA hleB,
      if_pos hcondB]
  have hclB := teardown_closes h v (List.ofFn B)
    (proc_destroy_filetable st A)
    { of with countRef := of.countRef - ((List.ofFn A).count (some h) : Int) }
    hheapA hvn hclA.2 hleB
  have hclA1 : (proc_destroy_filetable st A).closes.count v
      = st.closes.count v
        + (if ((List.ofFn A).count (some h) : Int) = of.countRef ∧
             (0:Int) < of.countRef then 1 else 0) := hclA.1
  have hclB1 : (proc_destroy_filetable
        (proc_destroy_filetable st A) B).closes.count v
      = (proc_destroy_filetable st A).closes.count v
        + (if ((List.ofFn B).count (some h) : Int)
             = of.countRef - ((List.ofFn A).count (some h) : Int) ∧
             (0:Int) < of.countRef - ((List.ofFn A).count (some h) : Int)
           then 1 else 0) := hclB.1
  refine ⟨⟨_, hheapA, hposA⟩, ?_, hheapB, ?_⟩
  · rw [hclA1, if_neg hcondA]
    omega
  · rw [hclB1, if_pos hcondB, hclA1, if_neg hcondA]

/-- C6 witness: one handle of count 2 on vnode 7, referenced once by each
of two identical single-slot tables; the first teardown leaves it open,
the second closes vnode 7 exactly once. -/
theorem C6_witness :
    (stTwo.heap 0 = some ofTwo ∧ ofTwo.vn = some 7 ∧
     ofTwo.countRef = (countTable oneFT 0 : Int) + (countTable oneFT 0 : Int) ∧
     1 ≤ countTable oneFT 0) ∧
    ((∃ ofA, (proc_destroy_filetable stTwo oneFT).heap 0 = some ofA ∧
        0 < ofA.countRef) ∧
     (proc_destroy_filetable stTwo oneFT).closes.count 7
       = stTwo.closes.count 7 ∧
     (proc_destroy_filetable
         (proc_destroy_filetable stTwo oneFT) oneFT).heap 0 = none ∧
     (proc_destroy_filetable
         (proc_destroy_filetable stTwo oneFT) oneFT).closes.count 7
       = stTwo.closes.count 7 + 1) :=
  ⟨⟨by decide, by decide, by decide, by decide⟩,
   C6_shared_handle_close_once oneFT oneFT stTwo 0 7 ofTwo (by decide)
     (by decide)
     (by
       intro g og hg hne
       by_cases hgz : g = 0
       · exact absurd hgz hg
       · simp [stTwo, hgz] at hne)
     (by decide) (by decide) (by decide)⟩

/-- C10 witness: duplicating a table that references handle 0 into an
empty destination copies the slot and raises the count from 1 to 1 + 1. -/
theorem C10_witness :
    stOne.heap 0 = some ofOne ∧
    ((proc_file_table_copy oneFT emptyFT stOne).2.heap 0
       = some { ofOne with
           countRef := ofOne.countRef + (countTable oneFT 0 : Int) } ∧
     ofOne.countRef ≤ ofOne.countRef + (countTable oneFT 0 : Int)) :=
  ⟨by decide,
   (C10_copy_unconditional_overwrite oneFT emptyFT stOne).2 0 ofOne
     (by decide)⟩

/-! # Deadlock freedom of the duplication lock order -/

theorem reachSet_start : ((0, 0) : LockState) ∈ reachSet := by decide

theorem reachSet_closed :
    ∀ s ∈ reachSet, ∀ s' ∈ nextStates s, s' ∈ reachSet := by decide

theorem reachSet_progress :
    ∀ s ∈ reachSet, s = ((6, 6) : LockState) ∨
      (nextStates s ≠ [] ∧ reachesDone 12 s = true) := by decide

theorem reachSet_measure :
    ∀ s ∈ reachSet, ∀ s' ∈ nextStates s, s.1 + s.2 + 1 = s'.1 + s'.2 := by
  decide

theorem lockReach_mem_reachSet : ∀ s, LockReach s → s ∈ reachSet := by
  intro s hreach
  induction hreach with
  | init => exact reachSet_start
  | step s s' _ hmem ih => exact reachSet_closed s ih s' hmem

/-- C8.  Two concurrent duplications with reversed source/destination,
each taking the global copy lock, then the source table's lock, then the
destination table's lock: from every reachable interleaving state, the
system is stuck only in the state where both calls have completed, every
transition strictly increases joint progress (so every maximal run is
finite), and completion of both calls is reachable within the 12
remaining steps — together: both complete, without deadlock. -/
theorem C8_reversed_copies_no_deadlock :
    ∀ s, LockReach s →
      (nextStates s = [] → s = (6, 6)) ∧
      reachesDone 12 s = true ∧
      (∀ s' ∈ nextStates s, s.1 + s.2 + 1 = s'.1 + s'.2) := by
  intro s hreach
  have hs := lockReach_mem_reachSet s hreach
  refine ⟨?_, ?_, reachSet_measure s hs⟩
  · intro hnil
    rcases reachSet_progress s hs with h66 | ⟨hne, _⟩
    · exact h66
    · exact absurd hnil hne
  · rcases reachSet_progress s hs with h66 | ⟨_, hd⟩
    · subst h66
      decide
    · exact hd

/-- C8 witness: the initial state of the two concurrent reversed
duplications is not stuck, reaches joint completion, and its transitions
increase progress. -/
theorem C8_witness :
    (nextStates (0, 0) = [] → ((0, 0) : LockState) = (6, 6)) ∧
    reachesDone 12 (0, 0) = true ∧
    (∀ s' ∈ nextStates ((0, 0) : LockState), 0 + 0 + 1 = s'.1 + s'.2) :=
  C8_reversed_copies_no_deadlock (0, 0) LockReach.init

end OSProc
